import Mathlib

/-!
Verification development for the bitbucket-to-github migration tool.

The definitions below are a shallow embedding of the repository's code:
the persistent repository state store (state-manager), the migration
orchestrator's failure / quota handling (index / migrate), and the LFS
manager (size parsing, working-tree and history scanners, configuration
resolver and migration strategy selection).  External collaborators
(the GitHub REST client, the git process wrapper, the glob engine and
the file system) are abstracted as explicit parameters; everything the
code itself computes is modelled faithfully, statement by statement.
-/

namespace B2G

/-! ## Repository state store (state-manager) -/

/-- A persisted repository record, one row of `repos.json`. -/
structure RepoRecord where
  name : String
  branch : String
  transferred : Bool
  processing : Bool
  created_at : Option String
  pushed_at : Option String
  error : Option String
  retry_count : Nat
  deriving DecidableEq, Repr

/-- A field-by-field update as passed to `updateRepoStatus` (the JS
`updates` object): `none` means the field is absent from the patch.
For `error` the inner option is the stored nullable message. -/
structure Patch where
  transferred : Option Bool := none
  processing : Option Bool := none
  error : Option (Option String) := none
  retry_count : Option Nat := none
  created_at : Option String := none
  pushed_at : Option String := none
  deriving DecidableEq, Repr

/-- `Object.assign(repos[i], updates)` followed by the cleanup clause of
`updateRepoStatus`: when the patch sets `transferred === true` the record's
`processing` and `error` are cleared and `pushed_at` is stamped. -/
def applyUpdate (r : RepoRecord) (p : Patch) (now : String) : RepoRecord :=
  let r1 : RepoRecord :=
    { name := r.name
      branch := r.branch
      transferred := p.transferred.getD r.transferred
      processing := p.processing.getD r.processing
      created_at := (p.created_at).orElse (fun _ => r.created_at)
      pushed_at := (p.pushed_at).orElse (fun _ => r.pushed_at)
      error := p.error.getD r.error
      retry_count := p.retry_count.getD r.retry_count }
  if p.transferred = some true then
    { r1 with processing := false, error := none, pushed_at := some now }
  else r1

/-- `updateRepoStatus`: find the record by name (findIndex), merge the
patch into it, persist.  `none` models the thrown NotFound error. -/
def updateRepoStatus : List RepoRecord → String → Patch → String → Option (List RepoRecord)
  | [], _, _, _ => none
  | r :: rs, repoName, p, now =>
    if r.name = repoName then some (applyUpdate r p now :: rs)
    else (updateRepoStatus rs repoName p now).map (fun t => r :: t)

/-- `repos.find(r => r.name === repoName)`. -/
def findRepo (t : List RepoRecord) (repoName : String) : Option RepoRecord :=
  t.find? (fun r => r.name = repoName)

/-- `markAsProcessing`. -/
def markAsProcessing (t : List RepoRecord) (repoName now : String) :
    Option (List RepoRecord) :=
  updateRepoStatus t repoName { processing := some true, error := some none } now

/-- `markAsCompleted`. -/
def markAsCompleted (t : List RepoRecord) (repoName createdAt now : String) :
    Option (List RepoRecord) :=
  updateRepoStatus t repoName
    { transferred := some true, processing := some false, error := some none,
      created_at := some createdAt, pushed_at := some now } now

/-- `markAsError`: look the record up first to compute the incremented
retry count, then update. -/
def markAsError (t : List RepoRecord) (repoName errorMessage now : String) :
    Option (List RepoRecord) :=
  let retryCount :=
    match findRepo t repoName with
    | some r => r.retry_count + 1
    | none => 1
  updateRepoStatus t repoName
    { processing := some false, error := some (some errorMessage),
      retry_count := some retryCount } now

/-- `clearError`: reset `error` and `retry_count` to enable a fresh retry cycle. -/
def clearError (t : List RepoRecord) (repoName now : String) :
    Option (List RepoRecord) :=
  updateRepoStatus t repoName { error := some none, retry_count := some 0 } now

/-- `resetProcessingRepos`: flip every `processing == true` record back to
false and return the count reset. -/
def resetProcessingRepos (t : List RepoRecord) : List RepoRecord × Nat :=
  (t.map (fun r => if r.processing then { r with processing := false } else r),
   (t.filter (fun r => r.processing)).length)

/-- `getPendingRepos`: filter `!transferred && !processing && retry_count < 3`. -/
def getPendingRepos (t : List RepoRecord) : List RepoRecord :=
  t.filter (fun r => !r.transferred && !r.processing && decide (r.retry_count < 3))

/-- The record invariant stated in the specification:
`transferred == true` implies `processing == false` and `error == null`. -/
def recordInvariant (r : RepoRecord) : Prop :=
  r.transferred = true → (r.processing = false ∧ r.error = none)

instance (r : RepoRecord) : Decidable (recordInvariant r) := by
  unfold recordInvariant; infer_instance

/-! ### Basic lemmas about the store -/

theorem applyUpdate_name (r : RepoRecord) (p : Patch) (now : String) :
    (applyUpdate r p now).name = r.name := by
  unfold applyUpdate
  by_cases h : p.transferred = some true <;> simp [h]

theorem applyUpdate_retry_count (r : RepoRecord) (p : Patch) (now : String) :
    (applyUpdate r p now).retry_count = p.retry_count.getD r.retry_count := by
  unfold applyUpdate
  by_cases h : p.transferred = some true <;> simp [h]

theorem applyUpdate_transferred (r : RepoRecord) (p : Patch) (now : String) :
    (applyUpdate r p now).transferred = p.transferred.getD r.transferred := by
  unfold applyUpdate
  by_cases h : p.transferred = some true <;> simp [h]

/-- A successful `updateRepoStatus` rewrites exactly the first record whose
name matches, leaves the rest alone, and the rewritten record is found
again under the same name. -/
theorem updateRepoStatus_found {t : List RepoRecord} {repoName : String} {r : RepoRecord}
    (p : Patch) (now : String) (h : findRepo t repoName = some r) :
    ∃ t', updateRepoStatus t repoName p now = some t' ∧
      findRepo t' repoName = some (applyUpdate r p now) ∧
      ∀ x ∈ t', x = applyUpdate r p now ∨ x ∈ t := by
  induction t with
  | nil => simp [findRepo] at h
  | cons hd tl ih =>
    by_cases hn : hd.name = repoName
    · have hr : r = hd := by
        simp [findRepo, List.find?_cons, hn] at h
        exact h.symm
      subst hr
      refine ⟨applyUpdate r p now :: tl, ?_, ?_, ?_⟩
      · simp [updateRepoStatus, hn]
      · simp [findRepo, List.find?_cons, applyUpdate_name, hn]
      · intro x hx
        rcases List.mem_cons.mp hx with hx | hx
        · exact Or.inl hx
        · exact Or.inr (List.mem_cons_of_mem _ hx)
    · have h' : findRepo tl repoName = some r := by
        simpa [findRepo, List.find?_cons, hn] using h
      obtain ⟨t', ht', hf', hm'⟩ := ih h'
      refine ⟨hd :: t', ?_, ?_, ?_⟩
      · simp [updateRepoStatus, hn, ht']
      · simpa [findRepo, List.find?_cons, hn] using hf'
      · intro x hx
        rcases List.mem_cons.mp hx with hx | hx
        · exact Or.inr (by simp [hx])
        · rcases hm' x hx with h1 | h1
          · exact Or.inl h1
          · exact Or.inr (List.mem_cons_of_mem _ h1)

/-! ## Migration orchestrator (index.js / github-api.js) -/

/-- Result of `githubAPI.createRepository`: `skipped == true` means the
destination already existed and was empty, so creation was skipped. -/
structure CreateResult where
  success : Bool
  skipped : Bool
  deriving DecidableEq, Repr

/-- Control flow of `createRepository` on the destination host state:
existing and empty → skip; existing and non-empty → throw; absent →
create anew. -/
def createRepository (repoExists repoIsEmpty : Bool) : Except String CreateResult :=
  if repoExists then
    if repoIsEmpty then Except.ok { success := true, skipped := true }
    else Except.error ("repository exists and is not empty")
  else Except.ok { success := true, skipped := false }

/-- The failure-cleanup guard in `migrateRepository`:
`if (!createResult || !createResult.skipped) deleteRepository(name)`.
`none` models a `createResult` still null because the attempt failed
before or during repository creation. -/
def shouldDeleteOnFailure (createResult : Option CreateResult) : Bool :=
  match createResult with
  | none => true
  | some r => !r.skipped

/-- Modelled from the spec: the destination was newly created during this
attempt exactly when creation ran and was not skipped. -/
def newlyCreatedThisAttempt (createResult : Option CreateResult) : Bool :=
  match createResult with
  | none => false
  | some r => !r.skipped

/-- Outcome of one `migrateRepository` call, as far as the state store is
concerned: success carries the destination creation timestamp, failure
carries the error message. -/
inductive AttemptResult
  | success (createdAt : String)
  | failure (message : String)
  deriving DecidableEq, Repr

/-- State-store effect of one `migrateRepository` call: mark processing
first; on success mark completed, on any failure mark failed (which
increments `retry_count`) after the local/remote cleanup. -/
def runAttempt (t : List RepoRecord) (repoName : String) (res : AttemptResult)
    (now : String) : Option (List RepoRecord) :=
  match markAsProcessing t repoName now with
  | none => none
  | some t1 =>
    match res with
    | .success createdAt => markAsCompleted t1 repoName createdAt now
    | .failure message => markAsError t1 repoName message now

/-- The rate-limit branch of `migrate`'s per-repository catch: the first
attempt has already failed with a quota signal (so `migrateRepository` has
run its failure path), the loop then waits until the signaled reset with
no state change, retries the same repository exactly once, and on a failed
retry additionally clears the `processing` flag before moving on. -/
def handleQuotaExceeded (t : List RepoRecord) (repoName quotaMessage : String)
    (retryResult : AttemptResult) (now : String) : Option (List RepoRecord) :=
  match runAttempt t repoName (.failure quotaMessage) now with
  | none => none
  | some t1 =>
    match retryResult with
    | .success createdAt => runAttempt t1 repoName (.success createdAt) now
    | .failure message =>
      match runAttempt t1 repoName (.failure message) now with
      | none => none
      | some t2 => updateRepoStatus t2 repoName { processing := some false } now

/-! ## LFS manager: set accumulation (the JS `Set`, insertion ordered) -/

/-- `Set.prototype.add`: append if not already present. -/
def sadd (s : List String) (x : String) : List String :=
  if x ∈ s then s else s ++ [x]

theorem mem_sadd {s : List String} {x y : String} :
    y ∈ sadd s x ↔ y ∈ s ∨ y = x := by
  unfold sadd
  by_cases h : x ∈ s
  · simp only [if_pos h]
    constructor
    · exact Or.inl
    · rintro (hy | rfl)
      · exact hy
      · exact h
  · simp [if_neg h]

theorem nodup_sadd {s : List String} {x : String} (h : s.Nodup) :
    (sadd s x).Nodup := by
  unfold sadd
  by_cases hx : x ∈ s
  · simpa [hx]
  · simp [hx, List.nodup_append, h]

theorem mem_foldl_sadd {l init : List String} {y : String} :
    y ∈ l.foldl sadd init ↔ y ∈ init ∨ y ∈ l := by
  induction l generalizing init with
  | nil => simp
  | cons a l ih =>
    simp only [List.foldl_cons, ih, mem_sadd, List.mem_cons]
    tauto

theorem nodup_foldl_sadd {l init : List String} (h : init.Nodup) :
    (l.foldl sadd init).Nodup := by
  induction l generalizing init with
  | nil => simpa
  | cons a l ih => exact ih (nodup_sadd h)

/-- Membership through a fold that conditionally adds elements. -/
theorem mem_foldl_condsadd (cond : String → Bool) {l init : List String} {y : String} :
    y ∈ l.foldl (fun acc z => if cond z then sadd acc z else acc) init ↔
      y ∈ init ∨ (y ∈ l ∧ cond y = true) := by
  induction l generalizing init with
  | nil => simp
  | cons a l ih =>
    simp only [List.foldl_cons, ih, List.mem_cons]
    by_cases hc : cond a
    · simp only [if_pos hc, mem_sadd]
      constructor
      · rintro (⟨hy | rfl⟩ | hy)
        · exact Or.inl hy
        · exact Or.inr ⟨Or.inl rfl, hc⟩
        · exact Or.inr ⟨Or.inr hy.1, hy.2⟩
      · rintro (hy | ⟨rfl | hy, hcy⟩)
        · exact Or.inl (Or.inl hy)
        · exact Or.inl (Or.inr rfl)
        · exact Or.inr ⟨hy, hcy⟩
    · simp only [if_neg hc]
      constructor
      · rintro (hy | hy)
        · exact Or.inl hy
        · exact Or.inr ⟨Or.inr hy.1, hy.2⟩
      · rintro (hy | ⟨rfl | hy, hcy⟩)
        · exact Or.inl hy
        · exact absurd hcy (by simpa using hc)
        · exact Or.inr ⟨hy, hcy⟩

/-- Membership through a fold that adds exactly the elements failing the
condition (the reclassification loop for missing configured files). -/
theorem mem_foldl_condskip (cond : String → Bool) {l init : List String} {y : String} :
    y ∈ l.foldl (fun acc z => if cond z then acc else sadd acc z) init ↔
      y ∈ init ∨ (y ∈ l ∧ cond y = false) := by
  induction l generalizing init with
  | nil => simp
  | cons a l ih =>
    simp only [List.foldl_cons, ih, List.mem_cons]
    by_cases hc : cond a
    · simp only [if_pos hc]
      constructor
      · rintro (hy | hy)
        · exact Or.inl hy
        · exact Or.inr ⟨Or.inr hy.1, hy.2⟩
      · rintro (hy | ⟨rfl | hy, hcy⟩)
        · exact Or.inl hy
        · exact absurd hc (by simp [hcy])
        · exact Or.inr ⟨hy, hcy⟩
    · simp only [if_neg hc]
      constructor
      · rintro (hy | hy)
        · rcases mem_sadd.mp hy with hy2 | rfl
          · exact Or.inl hy2
          · exact Or.inr ⟨Or.inl rfl, by simpa using hc⟩
        · exact Or.inr ⟨Or.inr hy.1, hy.2⟩
      · rintro (hy | ⟨rfl | hy, hcy⟩)
        · exact Or.inl (mem_sadd.mpr (Or.inl hy))
        · exact Or.inl (mem_sadd.mpr (Or.inr rfl))
        · exact Or.inr ⟨hy, hcy⟩

/-- Membership is preserved by any fold whose step preserves it. -/
theorem mem_foldl_of_mem_init {β : Type} (step : List String → β → List String)
    {y : String} (hstep : ∀ acc b, y ∈ acc → y ∈ step acc b)
    {l : List β} {init : List String} (h : y ∈ init) : y ∈ l.foldl step init := by
  induction l generalizing init with
  | nil => simpa
  | cons a l ih => exact ih (hstep init a h)

/-! ## LFS manager: history scanner (`detectLargeFilesInHistory`) -/

/-- One `git ls-tree -r -l <commit>` pass: add every entry whose stored
size strictly exceeds the threshold to the accumulated set. -/
def addLargeAtCommit (threshold : Nat) (acc : List String)
    (entries : List (String × Nat)) : List String :=
  entries.foldl (fun a e => if threshold < e.2 then sadd a e.1 else a) acc

/-- `detectLargeFilesInHistory`: walk the first `min(total, 50)` commits
of `git rev-list --all`; a commit that cannot be read (`none`) is skipped;
for a readable commit every oversized entry is accumulated. -/
def detectLargeFilesInHistory (commits : List (Option (List (String × Nat))))
    (threshold : Nat) : List String :=
  (commits.take (min commits.length 50)).foldl
    (fun acc c =>
      match c with
      | none => acc
      | some entries => addLargeAtCommit threshold acc entries) []

theorem mem_addLargeAtCommit {threshold : Nat} {acc : List String}
    {entries : List (String × Nat)} {y : String} :
    y ∈ addLargeAtCommit threshold acc entries ↔
      y ∈ acc ∨ ∃ sz, (y, sz) ∈ entries ∧ threshold < sz := by
  unfold addLargeAtCommit
  induction entries generalizing acc with
  | nil => simp
  | cons e es ih =>
    simp only [List.foldl_cons, ih, List.mem_cons]
    by_cases hc : threshold < e.2
    · simp only [if_pos hc, mem_sadd]
      constructor
      · rintro (⟨hy | rfl⟩ | ⟨sz, hsz, hlt⟩)
        · exact Or.inl hy
        · exact Or.inr ⟨e.2, Or.inl rfl, hc⟩
        · exact Or.inr ⟨sz, Or.inr hsz, hlt⟩
      · rintro (hy | ⟨sz, hsz | hsz, hlt⟩)
        · exact Or.inl (Or.inl hy)
        · exact Or.inl (Or.inr (congrArg Prod.fst hsz))
        · exact Or.inr ⟨sz, hsz, hlt⟩
    · simp only [if_neg hc]
      constructor
      · rintro (hy | ⟨sz, hsz, hlt⟩)
        · exact Or.inl hy
        · exact Or.inr ⟨sz, Or.inr hsz, hlt⟩
      · rintro (hy | ⟨sz, hsz | hsz, hlt⟩)
        · exact Or.inl hy
        · exact absurd hlt (by
            have h2 : sz = e.2 := congrArg Prod.snd hsz
            simpa [h2] using hc)
        · exact Or.inr ⟨sz, hsz, hlt⟩

theorem nodup_addLargeAtCommit {threshold : Nat} {acc : List String}
    {entries : List (String × Nat)} (h : acc.Nodup) :
    (addLargeAtCommit threshold acc entries).Nodup := by
  unfold addLargeAtCommit
  induction entries generalizing acc with
  | nil => simpa
  | cons e es ih =>
    simp only [List.foldl_cons]
    by_cases hc : threshold < e.2
    · simp only [if_pos hc]
      exact ih (nodup_sadd h)
    · simp only [if_neg hc]
      exact ih h

theorem mem_histFold {cs : List (Option (List (String × Nat)))}
    {init : List String} {threshold : Nat} {y : String} :
    y ∈ cs.foldl
        (fun acc c =>
          match c with
          | none => acc
          | some entries => addLargeAtCommit threshold acc entries) init ↔
      y ∈ init ∨ ∃ c ∈ cs, ∃ entries, c = some entries ∧
        ∃ sz, (y, sz) ∈ entries ∧ threshold < sz := by
  induction cs generalizing init with
  | nil => simp
  | cons c cs ih =>
    cases c with
    | none =>
      simp only [List.foldl_cons, ih, List.mem_cons]
      constructor
      · rintro (hy | ⟨c, hc, rest⟩)
        · exact Or.inl hy
        · exact Or.inr ⟨c, Or.inr hc, rest⟩
      · rintro (hy | ⟨c, rfl | hc, entries, hce, rest⟩)
        · exact Or.inl hy
        · exact absurd hce (by simp)
        · exact Or.inr ⟨c, hc, entries, hce, rest⟩
    | some entries =>
      simp only [List.foldl_cons, ih, mem_addLargeAtCommit, List.mem_cons]
      constructor
      · rintro (⟨hy | ⟨sz, hsz, hlt⟩⟩ | ⟨c, hc, rest⟩)
        · exact Or.inl hy
        · exact Or.inr ⟨some entries, Or.inl rfl, entries, rfl, sz, hsz, hlt⟩
        · exact Or.inr ⟨c, Or.inr hc, rest⟩
      · rintro (hy | ⟨c, rfl | hc, entries2, hce, rest⟩)
        · exact Or.inl (Or.inl hy)
        · obtain rfl : entries = entries2 := by simpa using hce
          exact Or.inl (Or.inr rest)
        · exact Or.inr ⟨c, hc, entries2, hce, rest⟩

/-- The history scanner characterised: a path is reported iff some
readable commit among the first 50 stores it with a size strictly above
the threshold. -/
theorem mem_detectLargeFilesInHistory
    {commits : List (Option (List (String × Nat)))} {threshold : Nat} {y : String} :
    y ∈ detectLargeFilesInHistory commits threshold ↔
      ∃ c ∈ commits.take 50, ∃ entries, c = some entries ∧
        ∃ sz, (y, sz) ∈ entries ∧ threshold < sz := by
  unfold detectLargeFilesInHistory
  have htake : commits.take (min commits.length 50) = commits.take 50 := by
    rcases le_total commits.length 50 with h | h
    · rw [min_eq_left h, List.take_length, List.take_of_length_le h]
    · rw [min_eq_right h]
  rw [htake, mem_histFold]
  simp

theorem nodup_detectLargeFilesInHistory
    {commits : List (Option (List (String × Nat)))} {threshold : Nat} :
    (detectLargeFilesInHistory commits threshold).Nodup := by
  unfold detectLargeFilesInHistory
  generalize commits.take (min commits.length 50) = cs
  have : ∀ (init : List String), init.Nodup →
      (cs.foldl
        (fun acc c =>
          match c with
          | none => acc
          | some entries => addLargeAtCommit threshold acc entries) init).Nodup := by
    induction cs with
    | nil => intro init h; simpa
    | cons c cs ih =>
      intro init h
      cases c with
      | none => exact ih init h
      | some entries => exact ih _ (nodup_addLargeAtCommit h)
  exact this [] List.nodup_nil

/-- The scan inspects only the first `min(total, 50)` revisions: commits
beyond the window cannot influence the result. -/
theorem detectLargeFilesInHistory_take50
    (commits : List (Option (List (String × Nat)))) (threshold : Nat) :
    detectLargeFilesInHistory commits threshold =
      detectLargeFilesInHistory (commits.take 50) threshold := by
  unfold detectLargeFilesInHistory
  have htake : ∀ (l : List (Option (List (String × Nat)))),
      l.take (min l.length 50) = l.take 50 := by
    intro l
    rcases le_total l.length 50 with h | h
    · rw [min_eq_left h, List.take_length, List.take_of_length_le h]
    · rw [min_eq_right h]
  rw [htake, htake, List.take_take, min_self]

/-! ## LFS manager: working-tree scanner and configuration resolver -/

/-- One user-authored LFS configuration entry (`lfs-settings.json`). -/
structure LFSConfigEntry where
  files : Option (List String)
  patterns : Option (List String)
  autoDetect : Bool

/-- Detection mode of `getLFSMode` (it never returns its third value). -/
inductive LFSMode
  | configured
  | autoDetect
  deriving DecidableEq, Repr

/-- `hasLFSConfig`: whether the settings table has an entry for the name. -/
def hasLFSConfig (settings : String → Option LFSConfigEntry) (repoName : String) : Bool :=
  (settings repoName).isSome

/-- `getLFSMode`: configured when an entry exists, auto-detect otherwise. -/
def getLFSMode (settings : String → Option LFSConfigEntry) (repoName : String) : LFSMode :=
  if hasLFSConfig settings repoName then LFSMode.configured else LFSMode.autoDetect

/-- `autoDetectLFSFiles`: enumerate the working tree (the glob result,
with the ignore rules applied as the `ignored` predicate) and keep every
file whose size strictly exceeds the threshold. -/
def autoDetectLFSFiles (wt : List (String × Nat)) (ignored : String → Bool)
    (threshold : Nat) : List String :=
  ((wt.filter (fun e => !(ignored e.1))).filter (fun e => decide (threshold < e.2))).map
    (fun e => e.1)

/-- The detection result produced by `scanLFSFiles`. -/
structure ScanResult where
  files : List String
  historyFiles : List String
  allFiles : List String
  mode : LFSMode
  hasConfig : Bool

/-- `scanLFSFiles`: in configured mode the entry's explicit files are
existence-checked (existing ones feed `files`, missing ones are
reclassified into `historyFiles`), patterns are glob-expanded, and the
auto-detect scan is added only when the entry opts in; without an entry
the full auto-detect scan feeds `files`.  In both modes the history
scanner runs and its output is unioned into `historyFiles`. -/
def scanLFSFiles (settings : String → Option LFSConfigEntry) (repoName : String)
    (wt : List (String × Nat)) (ignored : String → Bool)
    (expandPattern : String → List String)
    (commits : List (Option (List (String × Nat))))
    (threshold : Nat) : ScanResult :=
  let mode := getLFSMode settings repoName
  let fileExistsInTree := fun (f : String) => wt.any (fun e => e.1 = f)
  let lfsFiles : List String :=
    match mode, settings repoName with
    | LFSMode.configured, some repoConfig =>
      let l1 := (repoConfig.files.getD []).foldl
        (fun acc file => if fileExistsInTree file then sadd acc file else acc) []
      let l2 := (repoConfig.patterns.getD []).foldl
        (fun acc pat => (expandPattern pat).foldl sadd acc) l1
      if repoConfig.autoDetect then (autoDetectLFSFiles wt ignored threshold).foldl sadd l2
      else l2
    | _, _ => (autoDetectLFSFiles wt ignored threshold).foldl sadd []
  let historyFromConfig : List String :=
    match mode, settings repoName with
    | LFSMode.configured, some repoConfig =>
      (repoConfig.files.getD []).foldl
        (fun acc file => if fileExistsInTree file then acc else sadd acc file) []
    | _, _ => []
  let historyFiles :=
    (detectLargeFilesInHistory commits threshold).foldl sadd historyFromConfig
  let allFiles := historyFiles.foldl sadd (lfsFiles.foldl sadd [])
  { files := lfsFiles
    historyFiles := historyFiles
    allFiles := allFiles
    mode := mode
    hasConfig :=
      match mode with
      | LFSMode.configured => true
      | LFSMode.autoDetect => false }

/-! ## LFS manager: migration strategy selection (`setupLFS`) -/

/-- The strategy chosen by `setupLFS` for the history rewrite:
Strategy A (`git lfs migrate import --above=<threshold>MB --everything`),
Strategy B (`git lfs migrate import --include=<files> --everything`),
or no rewrite at all. -/
inductive Strategy
  | sizeBased (thresholdMB : Nat)
  | fileList (files : List String)
  | noRewrite
  deriving DecidableEq, Repr

/-- The strategy decision of `setupLFS`: nothing to do when the union of
current and history files is empty; otherwise size-based whenever history
files exist, else the explicit current-file list. -/
def setupLFSStrategy (lfsFiles historyFiles : List String) (thresholdMB : Nat) :
    Strategy :=
  if (historyFiles.foldl sadd (lfsFiles.foldl sadd [])).length = 0 then Strategy.noRewrite
  else if 0 < historyFiles.length then Strategy.sizeBased thresholdMB
  else if 0 < lfsFiles.length then Strategy.fileList lfsFiles
  else Strategy.noRewrite

/-! ## LFS manager: `parseSize`

The JS code matches the input against the case-insensitive anchored
regular expression for a digit run, an optional fractional part, optional
whitespace and a unit in B/KB/MB/GB, then returns
`parseFloat(number) * unitMultiplier`.  The numeric value is modelled
exactly in `ℚ`. -/

/-- Value of a run of decimal digits. -/
def digitsVal (ds : List Char) : Nat :=
  ds.foldl (fun n c => 10 * n + (c.toNat - ('0').toNat)) 0

/-- Value of `parseFloat` on `<d1>.<d2>`. -/
def numeralVal (d1 d2 : List Char) : ℚ :=
  (digitsVal d1 : ℚ) + (digitsVal d2 : ℚ) / ((10 : ℚ) ^ d2.length)

/-- Case-insensitive comparison against the unit letters. -/
def isB (c : Char) : Bool := c = 'B' || c = 'b'

def isK (c : Char) : Bool := c = 'K' || c = 'k'

def isM (c : Char) : Bool := c = 'M' || c = 'm'

def isG (c : Char) : Bool := c = 'G' || c = 'g'

/-- The `units` table applied to the case-insensitively matched unit:
B → 1, KB → 1024, MB → 1024², GB → 1024³; anything else fails the regex. -/
def unitMult : List Char → Option ℚ
  | [c] => if isB c then some (1 : ℚ) else none
  | [c1, c2] =>
    if isB c2 then
      if isK c1 then some (1024 : ℚ)
      else if isM c1 then some ((1024 : ℚ) * 1024)
      else if isG c1 then some ((1024 : ℚ) * 1024 * 1024)
      else none
    else none
  | _ => none

/-- After the numeral: skip the `\s*` run and require the remainder to be
exactly a unit; multiply the numeric value by the unit multiplier. -/
def finishUnit (v : ℚ) (rest : List Char) : Option ℚ :=
  match unitMult (rest.dropWhile Char.isWhitespace) with
  | some m => some (v * m)
  | none => none

/-- The remainder of the regex after the leading digit run `d1`:
either a fractional part `.` followed by at least one digit, or nothing,
then whitespace and the unit. -/
def parseAfterNumeral (d1 : List Char) : List Char → Option ℚ
  | [] => none
  | c :: rest2 =>
    if c = '.' then
      if (rest2.takeWhile Char.isDigit).isEmpty then none
      else
        finishUnit (numeralVal d1 (rest2.takeWhile Char.isDigit))
          (rest2.dropWhile Char.isDigit)
    else finishUnit ((digitsVal d1 : ℚ)) (c :: rest2)

/-- `parseSize` on a character list: at least one leading digit, then the
optional fraction, optional whitespace, and the unit; `none` models the
thrown MalformedSize error. -/
def parseSizeChars (cs : List Char) : Option ℚ :=
  if (cs.takeWhile Char.isDigit).isEmpty then none
  else parseAfterNumeral (cs.takeWhile Char.isDigit) (cs.dropWhile Char.isDigit)

/-- `parseSize` itself. -/
def parseSize (s : String) : Option ℚ :=
  parseSizeChars s.data

/-- Every character is a decimal digit. -/
def IsDigits (l : List Char) : Prop := ∀ c ∈ l, c.isDigit = true

instance (l : List Char) : Decidable (IsDigits l) := by
  unfold IsDigits; infer_instance

/-- Every character is whitespace. -/
def IsWS (l : List Char) : Prop := ∀ c ∈ l, c.isWhitespace = true

instance (l : List Char) : Decidable (IsWS l) := by
  unfold IsWS; infer_instance

/-- A string conforming to the size grammar
`^(\d+(?:\.\d+)?)\s*(B|KB|MB|GB)$` (case-insensitive). -/
def ConformsSize (cs : List Char) : Prop :=
  ∃ d1 fr ws u m,
    cs = d1 ++ fr ++ ws ++ u ∧ d1 ≠ [] ∧ IsDigits d1 ∧
    (fr = [] ∨ ∃ d2, fr = ('.') :: d2 ∧ d2 ≠ [] ∧ IsDigits d2) ∧
    IsWS ws ∧ unitMult u = some m

/-! ### Parsing lemmas -/

theorem takeWhile_append_all (p : Char → Bool) (xs ys : List Char)
    (hx : ∀ c ∈ xs, p c = true) (hy : ∀ c, ys.head? = some c → p c = false) :
    (xs ++ ys).takeWhile p = xs ∧ (xs ++ ys).dropWhile p = ys := by
  induction xs with
  | nil =>
    cases ys with
    | nil => simp
    | cons c t =>
      have hc : p c = false := hy c rfl
      simp [List.takeWhile_cons, List.dropWhile_cons, hc]
  | cons x xs ih =>
    have hx0 : p x = true := hx x (by simp)
    have ih' := ih (fun c hc => hx c (by simp [hc]))
    simp [List.takeWhile_cons, List.dropWhile_cons, hx0, ih'.1, ih'.2]

theorem isWhitespace_not_digit {c : Char} (h : c.isWhitespace = true) :
    c.isDigit = false := by
  simp [Char.isWhitespace] at h
  obtain ((rfl | rfl) | rfl) | rfl := h <;> decide

theorem isWhitespace_ne_dot {c : Char} (h : c.isWhitespace = true) : ¬(c = '.') := by
  simp [Char.isWhitespace] at h
  obtain ((rfl | rfl) | rfl) | rfl := h <;> decide

theorem isB_cases {c : Char} (h : isB c = true) : c = 'B' ∨ c = 'b' := by
  simpa [isB] using h

theorem isK_cases {c : Char} (h : isK c = true) : c = 'K' ∨ c = 'k' := by
  simpa [isK] using h

theorem isM_cases {c : Char} (h : isM c = true) : c = 'M' ∨ c = 'm' := by
  simpa [isM] using h

theorem isG_cases {c : Char} (h : isG c = true) : c = 'G' ∨ c = 'g' := by
  simpa [isG] using h

/-- A matched unit starts with a letter: not a digit, not whitespace,
not the decimal dot. -/
theorem unitMult_head {u : List Char} {m : ℚ} (h : unitMult u = some m) :
    ∃ c t, u = c :: t ∧ c.isDigit = false ∧ c.isWhitespace = false ∧ ¬(c = '.') := by
  cases u with
  | nil => simp [unitMult] at h
  | cons c t =>
    refine ⟨c, t, rfl, ?_⟩
    cases t with
    | nil =>
      by_cases hb : isB c
      · rcases isB_cases hb with rfl | rfl
        · exact ⟨by decide, by decide, by decide⟩
        · exact ⟨by decide, by decide, by decide⟩
      · simp [unitMult, hb] at h
    | cons c2 t2 =>
      cases t2 with
      | nil =>
        by_cases hb : isB c2
        · by_cases hk : isK c
          · rcases isK_cases hk with rfl | rfl
            · exact ⟨by decide, by decide, by decide⟩
            · exact ⟨by decide, by decide, by decide⟩
          · by_cases hm2 : isM c
            · rcases isM_cases hm2 with rfl | rfl
              · exact ⟨by decide, by decide, by decide⟩
              · exact ⟨by decide, by decide, by decide⟩
            · by_cases hg : isG c
              · rcases isG_cases hg with rfl | rfl
                · exact ⟨by decide, by decide, by decide⟩
                · exact ⟨by decide, by decide, by decide⟩
              · simp [unitMult, hb, hk, hm2, hg] at h
        · simp [unitMult, hb] at h
      | cons c3 t3 => simp [unitMult] at h

/-- Every unit multiplier is a natural number. -/
theorem unitMult_natCast {u : List Char} {m : ℚ} (h : unitMult u = some m) :
    ∃ k : ℕ, m = (k : ℚ) := by
  cases u with
  | nil => simp [unitMult] at h
  | cons c t =>
    cases t with
    | nil =>
      by_cases hb : isB c
      · simp [unitMult, hb] at h
        exact ⟨1, by simp [← h]⟩
      · simp [unitMult, hb] at h
    | cons c2 t2 =>
      cases t2 with
      | nil =>
        by_cases hb : isB c2
        · by_cases hk : isK c
          · simp [unitMult, hb, hk] at h
            exact ⟨1024, by rw [← h]; norm_num⟩
          · by_cases hm2 : isM c
            · simp [unitMult, hb, hk, hm2] at h
              exact ⟨1024 * 1024, by rw [← h]; norm_num⟩
            · by_cases hg : isG c
              · simp [unitMult, hb, hk, hm2, hg] at h
                exact ⟨1024 * 1024 * 1024, by rw [← h]; norm_num⟩
              · simp [unitMult, hb, hk, hm2, hg] at h
        · simp [unitMult, hb] at h
      | cons c3 t3 => simp [unitMult] at h

theorem finishUnit_ws_unit {ws u : List Char} (hws : IsWS ws) {m : ℚ}
    (hu : unitMult u = some m) (v : ℚ) :
    finishUnit v (ws ++ u) = some (v * m) := by
  obtain ⟨c, t, rfl, _, hcw, _⟩ := unitMult_head hu
  have hdrop := (takeWhile_append_all Char.isWhitespace ws (c :: t) hws
    (fun x hx => by
      simp only [List.head?_cons, Option.some.injEq] at hx
      subst hx
      exact hcw)).2
  unfold finishUnit
  rw [hdrop, hu]

/-- A conforming string with no fractional part parses to
`digits × multiplier`. -/
theorem parseSizeChars_intNumeral {d1 ws u : List Char} {m : ℚ}
    (hd1 : d1 ≠ []) (hd1d : IsDigits d1) (hws : IsWS ws) (hu : unitMult u = some m) :
    parseSizeChars (d1 ++ ws ++ u) = some ((digitsVal d1 : ℚ) * m) := by
  obtain ⟨c, t, rfl, hcd, hcw, hcdot⟩ := unitMult_head hu
  have hy : ∀ x, (ws ++ c :: t).head? = some x → Char.isDigit x = false := by
    intro x hx
    cases ws with
    | nil =>
      simp only [List.nil_append, List.head?_cons, Option.some.injEq] at hx
      subst hx; exact hcd
    | cons w ws' =>
      simp only [List.cons_append, List.head?_cons, Option.some.injEq] at hx
      subst hx
      exact isWhitespace_not_digit (hws w (by simp))
  have htw := takeWhile_append_all Char.isDigit d1 (ws ++ c :: t) hd1d hy
  have hne : (d1 : List Char).isEmpty = false := by
    cases d1 with
    | nil => exact absurd rfl hd1
    | cons a as => rfl
  rw [List.append_assoc]
  unfold parseSizeChars
  rw [htw.1, htw.2, hne]
  simp only [Bool.false_eq_true, if_false]
  cases ws with
  | nil =>
    simp only [List.nil_append, parseAfterNumeral, if_neg hcdot]
    simpa using finishUnit_ws_unit (fun x hx => absurd hx (List.not_mem_nil x)) hu
      ((digitsVal d1 : ℚ))
  | cons w ws' =>
    have hwdot : ¬(w = '.') := isWhitespace_ne_dot (hws w (by simp))
    simp only [List.cons_append, parseAfterNumeral, if_neg hwdot]
    have := finishUnit_ws_unit hws hu ((digitsVal d1 : ℚ))
    simpa using this

/-- A conforming string with a fractional part parses to
`(int + frac/10^len) × multiplier`. -/
theorem parseSizeChars_fracNumeral {d1 d2 ws u : List Char} {m : ℚ}
    (hd1 : d1 ≠ []) (hd1d : IsDigits d1) (hd2 : d2 ≠ []) (hd2d : IsDigits d2)
    (hws : IsWS ws) (hu : unitMult u = some m) :
    parseSizeChars (d1 ++ ('.') :: d2 ++ ws ++ u) = some (numeralVal d1 d2 * m) := by
  obtain ⟨c, t, rfl, hcd, hcw, hcdot⟩ := unitMult_head hu
  have hy2 : ∀ x, (ws ++ c :: t).head? = some x → Char.isDigit x = false := by
    intro x hx
    cases ws with
    | nil =>
      simp only [List.nil_append, List.head?_cons, Option.some.injEq] at hx
      subst hx; exact hcd
    | cons w ws' =>
      simp only [List.cons_append, List.head?_cons, Option.some.injEq] at hx
      subst hx
      exact isWhitespace_not_digit (hws w (by simp))
  have htw2 := takeWhile_append_all Char.isDigit d2 (ws ++ c :: t) hd2d hy2
  have hy1 : ∀ x, (('.') :: (d2 ++ (ws ++ c :: t))).head? = some x →
      Char.isDigit x = false := by
    intro x hx
    simp only [List.head?_cons, Option.some.injEq] at hx
    subst hx; decide
  have htw1 := takeWhile_append_all Char.isDigit d1 (('.') :: (d2 ++ (ws ++ c :: t))) hd1d hy1
  have hne1 : (d1 : List Char).isEmpty = false := by
    cases d1 with
    | nil => exact absurd rfl hd1
    | cons a as => rfl
  have hne2 : (d2 : List Char).isEmpty = false := by
    cases d2 with
    | nil => exact absurd rfl hd2
    | cons a as => rfl
  have hshape : d1 ++ ('.') :: d2 ++ ws ++ (c :: t) =
      d1 ++ (('.') :: (d2 ++ (ws ++ c :: t))) := by
    simp [List.append_assoc]
  rw [hshape]
  unfold parseSizeChars
  rw [htw1.1, htw1.2, hne1]
  simp only [Bool.false_eq_true, if_false, parseAfterNumeral, if_pos rfl]
  rw [htw2.1, htw2.2, hne2]
  simp only [Bool.false_eq_true, if_false]
  exact finishUnit_ws_unit hws hu (numeralVal d1 d2)

/-- Soundness: whenever `parseSize` succeeds, the input conforms to the
size grammar. -/
theorem parseSizeChars_sound {cs : List Char} {v : ℚ}
    (h : parseSizeChars cs = some v) : ConformsSize cs := by
  unfold parseSizeChars at h
  by_cases he : (cs.takeWhile Char.isDigit).isEmpty = true
  · rw [if_pos he] at h; cases h
  · rw [if_neg he] at h
    have hd1d : IsDigits (cs.takeWhile Char.isDigit) :=
      fun c hc => List.mem_takeWhile_imp hc
    have hd1 : cs.takeWhile Char.isDigit ≠ [] := by
      intro hnil
      exact he (by rw [hnil]; rfl)
    cases hrest : cs.dropWhile Char.isDigit with
    | nil => rw [hrest] at h; cases h
    | cons c rest2 =>
      rw [hrest] at h
      have hcs : cs = cs.takeWhile Char.isDigit ++ (c :: rest2) := by
        rw [← hrest, List.takeWhile_append_dropWhile]
      by_cases hc : c = '.'
      · subst hc
        simp only [parseAfterNumeral, if_pos rfl] at h
        by_cases he2 : (rest2.takeWhile Char.isDigit).isEmpty = true
        · rw [if_pos he2] at h; cases h
        · rw [if_neg he2] at h
          have hd2d : IsDigits (rest2.takeWhile Char.isDigit) :=
            fun c hc => List.mem_takeWhile_imp hc
          have hd2 : rest2.takeWhile Char.isDigit ≠ [] := by
            intro hnil
            exact he2 (by rw [hnil]; rfl)
          unfold finishUnit at h
          cases hu : unitMult
              (((rest2.dropWhile Char.isDigit)).dropWhile Char.isWhitespace) with
          | none => rw [hu] at h; cases h
          | some m =>
            refine ⟨cs.takeWhile Char.isDigit,
              ('.') :: rest2.takeWhile Char.isDigit,
              (rest2.dropWhile Char.isDigit).takeWhile Char.isWhitespace,
              (rest2.dropWhile Char.isDigit).dropWhile Char.isWhitespace,
              m, ?_, hd1, hd1d, ?_, ?_, hu⟩
            · conv_lhs => rw [hcs]
              simp only [List.append_assoc]
              congr 1
              simp only [List.cons_append]
              congr 1
              rw [List.takeWhile_append_dropWhile, List.takeWhile_append_dropWhile]
            · exact Or.inr ⟨rest2.takeWhile Char.isDigit, rfl, hd2, hd2d⟩
            · exact fun c hc => List.mem_takeWhile_imp hc
      · simp only [parseAfterNumeral, if_neg hc] at h
        unfold finishUnit at h
        cases hu : unitMult ((c :: rest2).dropWhile Char.isWhitespace) with
        | none => rw [hu] at h; cases h
        | some m =>
          refine ⟨cs.takeWhile Char.isDigit, [],
            (c :: rest2).takeWhile Char.isWhitespace,
            (c :: rest2).dropWhile Char.isWhitespace,
            m, ?_, hd1, hd1d, Or.inl rfl, ?_, hu⟩
          · conv_lhs => rw [hcs]
            simp only [List.nil_append, List.append_assoc]
            congr 1
            rw [List.takeWhile_append_dropWhile]
          · exact fun c hc => List.mem_takeWhile_imp hc

/-! ## Process working-directory discipline

The functions that run git commands use `process.chdir(repoPath)` inside a
`try`, with `process.chdir(originalCwd)` in the `finally`.  `CwdM` models a
computation over the process-wide current working directory that can
throw; the bodies (the external git calls plus everything the functions
compute) are abstract parameters, so the theorems hold whatever the
body does to the working directory and however it terminates. -/

/-- A computation over the process cwd: result or thrown error, plus the
final cwd. -/
def CwdM (α : Type) : Type := String → Except String α × String

/-- `process.chdir(dir)`. -/
def chdirM (dir : String) : CwdM Unit := fun _ => (Except.ok (), dir)

/-- Return a value. -/
def pureM {α : Type} (a : α) : CwdM α := fun s => (Except.ok a, s)

/-- Throw an error. -/
def throwM {α : Type} (e : String) : CwdM α := fun s => (Except.error e, s)

/-- Sequencing: stop at the first thrown error. -/
def bindM {α β : Type} (x : CwdM α) (f : α → CwdM β) : CwdM β := fun s =>
  match x s with
  | (Except.ok a, s1) => f a s1
  | (Except.error e, s1) => (Except.error e, s1)

/-- `try … catch (e) { handler }`. -/
def tryCatchM {α : Type} (body : CwdM α) (handler : String → CwdM α) : CwdM α := fun s =>
  match body s with
  | (Except.ok a, s1) => (Except.ok a, s1)
  | (Except.error e, s1) => handler e s1

/-- `try … finally { fin }`: the finaliser always runs. -/
def tryFinallyM {α : Type} (body : CwdM α) (fin : CwdM Unit) : CwdM α := fun s =>
  let p := body s
  let q := fin p.2
  match q.1 with
  | Except.ok _ => (p.1, q.2)
  | Except.error e => (Except.error e, q.2)

/-- Cwd skeleton of `detectLargeFilesInHistory`: chdir into the repo, run
the scan, swallow any error (the catch only warns), restore the original
cwd in the finally. -/
def detectHistoryCwd (repoPath : String) (body : CwdM (List String)) :
    CwdM (List String) := fun cwd0 =>
  tryFinallyM
    (tryCatchM (bindM (chdirM repoPath) (fun _ => body)) (fun _ => pureM []))
    (chdirM cwd0) cwd0

/-- Cwd skeleton of `setupLFS`: chdir into the repo, run the setup, wrap
and rethrow any error, restore the original cwd in the finally. -/
def setupLFSCwd {α : Type} (repoPath repoName : String) (body : CwdM α) :
    CwdM α := fun cwd0 =>
  tryFinallyM
    (tryCatchM (bindM (chdirM repoPath) (fun _ => body))
      (fun e => throwM ("LFS setup failed " ++ repoName ++ ": " ++ e)))
    (chdirM cwd0) cwd0

/-- Cwd skeleton of `getExistingLFSFiles`: chdir, list, return `[]` on any
error, restore the original cwd in the finally. -/
def getExistingLFSFilesCwd (repoPath : String) (body : CwdM (List String)) :
    CwdM (List String) := fun cwd0 =>
  tryFinallyM
    (tryCatchM (bindM (chdirM repoPath) (fun _ => body)) (fun _ => pureM []))
    (chdirM cwd0) cwd0

/-- Cwd skeleton of `pushToGitHub`: chdir, add remote and push, wrap and
rethrow any error, restore the original cwd in the finally. -/
def pushToGitHubCwd {α : Type} (repoPath repoName : String) (body : CwdM α) :
    CwdM α := fun cwd0 =>
  tryFinallyM
    (tryCatchM (bindM (chdirM repoPath) (fun _ => body))
      (fun e => throwM ("Push failed " ++ repoName ++ ": " ++ e)))
    (chdirM cwd0) cwd0

/-! ## Claims -/

/-- C1: the Migration Strategy Selector chooses Strategy A (size-based
rewrite of the whole history at the global threshold) whenever
`historyFiles` is non-empty, regardless of the current-file list; chooses
Strategy B (explicit current-file path list) when `historyFiles` is empty
and `currentFiles` is non-empty; and performs no rewrite when both are
empty. -/
theorem claim_C1_strategy_selector (lfsFiles historyFiles : List String)
    (thresholdMB : Nat) :
    (historyFiles ≠ [] →
      setupLFSStrategy lfsFiles historyFiles thresholdMB = Strategy.sizeBased thresholdMB)
    ∧ (historyFiles = [] → lfsFiles ≠ [] →
      setupLFSStrategy lfsFiles historyFiles thresholdMB = Strategy.fileList lfsFiles)
    ∧ (historyFiles = [] → lfsFiles = [] →
      setupLFSStrategy lfsFiles historyFiles thresholdMB = Strategy.noRewrite) := by
  refine ⟨?_, ?_, ?_⟩
  · intro hh
    obtain ⟨x, hx⟩ := List.exists_mem_of_ne_nil historyFiles hh
    have hxA : x ∈ historyFiles.foldl sadd (lfsFiles.foldl sadd []) :=
      mem_foldl_sadd.mpr (Or.inr hx)
    have hA : ¬((historyFiles.foldl sadd (lfsFiles.foldl sadd [])).length = 0) := by
      intro h0
      rw [List.length_eq_zero] at h0
      rw [h0] at hxA
      exact List.not_mem_nil x hxA
    have hl : 0 < historyFiles.length := List.length_pos.mpr hh
    simp only [setupLFSStrategy, if_neg hA, if_pos hl]
  · intro hh hf
    subst hh
    obtain ⟨x, hx⟩ := List.exists_mem_of_ne_nil lfsFiles hf
    have hxA : x ∈ ([] : List String).foldl sadd (lfsFiles.foldl sadd []) :=
      mem_foldl_sadd.mpr (Or.inl (mem_foldl_sadd.mpr (Or.inr hx)))
    have hA : ¬((([] : List String).foldl sadd (lfsFiles.foldl sadd [])).length = 0) := by
      intro h0
      rw [List.length_eq_zero] at h0
      rw [h0] at hxA
      exact List.not_mem_nil x hxA
    have hl2 : ¬(0 < ([] : List String).length) := by simp
    have hl3 : 0 < lfsFiles.length := List.length_pos.mpr hf
    simp only [setupLFSStrategy, if_neg hA, if_neg hl2, if_pos hl3]
  · intro hh hf
    subst hh; subst hf
    rfl

/-- C1 witness: concrete strategy selections. -/
theorem claim_C1_strategy_selector_witness :
    setupLFSStrategy (["cur.bin"]) (["old.bin"]) 50 = Strategy.sizeBased 50
    ∧ setupLFSStrategy (["cur.bin"]) [] 50 = Strategy.fileList (["cur.bin"])
    ∧ setupLFSStrategy [] [] 50 = Strategy.noRewrite :=
  ⟨(claim_C1_strategy_selector (["cur.bin"]) (["old.bin"]) 50).1 (by decide),
   (claim_C1_strategy_selector (["cur.bin"]) [] 50).2.1 rfl (by decide),
   (claim_C1_strategy_selector [] [] 50).2.2 rfl rfl⟩

/-- C3: the failure-cleanup guard `!createResult || !createResult.skipped`
also fires when `createResult` is still null, i.e. when the attempt failed
before or during repository creation (for example because the destination
exists and is not empty), so `deleteRepository` is invoked although no
repository was newly created in this attempt — contradicting the code's
own comment and the specification, which preserve any destination that
was not newly created. -/
theorem claim_C3_delete_guard :
    createRepository true false = Except.error ("repository exists and is not empty")
    ∧ shouldDeleteOnFailure none = true
    ∧ newlyCreatedThisAttempt none = false :=
  ⟨rfl, rfl, rfl⟩

/-- C9: the history scanner inspects at most the first
`min(total, 50)` revisions, returns a deduplicated set, and a path is
reported exactly when some readable revision in that window stores it
with a size strictly above the threshold — unreadable revisions are
skipped without aborting the scan. -/
theorem claim_C9_history_scanner (commits : List (Option (List (String × Nat))))
    (threshold : Nat) :
    detectLargeFilesInHistory commits threshold =
      detectLargeFilesInHistory (commits.take 50) threshold
    ∧ (detectLargeFilesInHistory commits threshold).Nodup
    ∧ ∀ y, y ∈ detectLargeFilesInHistory commits threshold ↔
        ∃ c ∈ commits.take 50, ∃ entries, c = some entries ∧
          ∃ sz, (y, sz) ∈ entries ∧ threshold < sz :=
  ⟨detectLargeFilesInHistory_take50 commits threshold,
   nodup_detectLargeFilesInHistory,
   fun _ => mem_detectLargeFilesInHistory⟩

/-- C10: every operation that changes the process-wide working directory
(`detectLargeFilesInHistory`, `setupLFS`, `getExistingLFSFiles`,
`pushToGitHub`) restores the original working directory before
returning, both on normal return and when it terminates by throwing,
whatever the body does. -/
theorem claim_C10_cwd_restored {α β : Type} (repoPath repoName cwd0 : String)
    (body1 : CwdM (List String)) (body2 : CwdM α)
    (body3 : CwdM (List String)) (body4 : CwdM β) :
    (detectHistoryCwd repoPath body1 cwd0).2 = cwd0
    ∧ (setupLFSCwd repoPath repoName body2 cwd0).2 = cwd0
    ∧ (getExistingLFSFilesCwd repoPath body3 cwd0).2 = cwd0
    ∧ (pushToGitHubCwd repoPath repoName body4 cwd0).2 = cwd0 :=
  ⟨rfl, rfl, rfl, rfl⟩

/-! ### Store helper lemmas shared by the state-store claims -/

/-- Every member of a successfully updated table is either an old member
or the patched record. -/
theorem updateRepoStatus_mem {t t' : List RepoRecord} {repoName : String} {p : Patch}
    {now : String} (h : updateRepoStatus t repoName p now = some t') :
    ∀ x ∈ t', x ∈ t ∨ ∃ r, r ∈ t ∧ x = applyUpdate r p now := by
  induction t generalizing t' with
  | nil => cases h
  | cons hd tl ih =>
    by_cases hn : hd.name = repoName
    · simp only [updateRepoStatus, if_pos hn] at h
      obtain rfl := Option.some.inj h
      intro x hx
      rcases List.mem_cons.mp hx with rfl | hx
      · exact Or.inr ⟨hd, by simp, rfl⟩
      · exact Or.inl (by simp [hx])
    · simp only [updateRepoStatus, if_neg hn] at h
      cases hrec : updateRepoStatus tl repoName p now with
      | none => rw [hrec] at h; cases h
      | some t2 =>
        rw [hrec] at h
        simp only [Option.map_some'] at h
        obtain rfl := Option.some.inj h
        intro x hx
        rcases List.mem_cons.mp hx with rfl | hx
        · exact Or.inl (by simp)
        · rcases ih hrec x hx with h1 | ⟨r, hr, hxr⟩
          · exact Or.inl (List.mem_cons_of_mem _ h1)
          · exact Or.inr ⟨r, List.mem_cons_of_mem _ hr, hxr⟩

/-- A patch that sets `transferred = true` yields a record satisfying the
invariant, with `pushed_at` stamped and `error` cleared. -/
theorem applyUpdate_setTrue (r : RepoRecord) (p : Patch) (now : String)
    (hp : p.transferred = some true) :
    recordInvariant (applyUpdate r p now) ∧ (applyUpdate r p now).pushed_at = some now
      ∧ (applyUpdate r p now).error = none := by
  unfold recordInvariant applyUpdate
  rw [if_pos hp]
  exact ⟨fun _ => ⟨rfl, rfl⟩, rfl, rfl⟩

/-- Updating a not-yet-transferred record always yields a record
satisfying the invariant. -/
theorem applyUpdate_notTransferred (r : RepoRecord) (p : Patch) (now : String)
    (hr : r.transferred = false) : recordInvariant (applyUpdate r p now) := by
  by_cases hp : p.transferred = some true
  · exact (applyUpdate_setTrue r p now hp).1
  · unfold recordInvariant
    intro ht
    exfalso
    rw [applyUpdate_transferred] at ht
    cases hpt : p.transferred with
    | none =>
      rw [hpt] at ht
      simp only [Option.getD_none] at ht
      rw [hr] at ht
      cases ht
    | some b =>
      cases b with
      | true => exact hp hpt
      | false =>
        rw [hpt] at ht
        simp only [Option.getD_some] at ht
        cases ht

/-- The `clearError` patch only clears `error` and resets `retry_count`. -/
theorem applyUpdate_clearError_fields (r : RepoRecord) (now : String) :
    applyUpdate r { error := some none, retry_count := some 0 } now =
      { r with error := none, retry_count := 0 } := by
  unfold applyUpdate
  rw [if_neg (by simp)]
  rfl

theorem applyUpdate_clearError_invariant (r : RepoRecord) (now : String)
    (hr : recordInvariant r) :
    recordInvariant (applyUpdate r { error := some none, retry_count := some 0 } now) := by
  rw [applyUpdate_clearError_fields]
  intro ht
  exact ⟨(hr ht).1, rfl⟩

theorem resetProcessingRepos_invariant {t : List RepoRecord}
    (h : ∀ x ∈ t, recordInvariant x) :
    ∀ x ∈ (resetProcessingRepos t).1, recordInvariant x := by
  intro x hx
  simp only [resetProcessingRepos, List.mem_map] at hx
  obtain ⟨r, hr, rfl⟩ := hx
  by_cases hp : r.processing
  · simp only [if_pos hp]
    intro ht
    exact ⟨rfl, (h r hr ht).2⟩
  · simp only [if_neg hp]
    exact h r hr

/-- Membership in `getPendingRepos`, decoded. -/
theorem mem_getPendingRepos {t : List RepoRecord} {r : RepoRecord} :
    r ∈ getPendingRepos t ↔
      r ∈ t ∧ r.transferred = false ∧ r.processing = false ∧ r.retry_count < 3 := by
  simp [getPendingRepos, List.mem_filter, and_assoc]

/-! ### Claims C5 and C6 -/

/-- A transferred record satisfying the invariant. -/
def doneRec : RepoRecord :=
  { name := "done", branch := "main", transferred := true, processing := false,
    created_at := none, pushed_at := none, error := none, retry_count := 0 }

/-- The record produced by `markAsProcessing` on `doneRec`. -/
def doneRecAfter : RepoRecord := { doneRec with processing := true }

/-- C5 counterexample: `markAsProcessing` applied to an
already-transferred record (which satisfies the invariant) produces a
record with `transferred == true` and `processing == true`, violating the
invariant — so not every store operation preserves it. -/
theorem claim_C5_counterexample :
    recordInvariant doneRec
    ∧ markAsProcessing ([doneRec]) ("done") ("now") = some ([doneRecAfter])
    ∧ ¬ recordInvariant doneRecAfter := by
  refine ⟨by decide, by decide, by decide⟩

/-- C5 (amended): any update that sets `transferred = true` (in
particular `markCompleted`) establishes the invariant and clears
`processing`/`error` while stamping `pushed_at`, even if `error` was set;
updates applied to a not-yet-transferred record preserve the invariant;
`markCompleted`, `clearError` and `resetStaleProcessing` preserve the
invariant on every record of the table; but updates that do not set
`transferred` (such as `markProcessing`/`markFailed`) are only
invariant-preserving on records that are not already transferred. -/
theorem claim_C5_amended :
    (∀ (r : RepoRecord) (p : Patch) (now : String), p.transferred = some true →
      recordInvariant (applyUpdate r p now) ∧ (applyUpdate r p now).pushed_at = some now
        ∧ (applyUpdate r p now).error = none)
    ∧ (∀ (r : RepoRecord) (p : Patch) (now : String), r.transferred = false →
      recordInvariant (applyUpdate r p now))
    ∧ (∀ (t t' : List RepoRecord) (repoName createdAt now : String),
      (∀ x ∈ t, recordInvariant x) → markAsCompleted t repoName createdAt now = some t' →
      ∀ x ∈ t', recordInvariant x)
    ∧ (∀ (t t' : List RepoRecord) (repoName now : String),
      (∀ x ∈ t, recordInvariant x) → clearError t repoName now = some t' →
      ∀ x ∈ t', recordInvariant x)
    ∧ (∀ t : List RepoRecord, (∀ x ∈ t, recordInvariant x) →
      ∀ x ∈ (resetProcessingRepos t).1, recordInvariant x) := by
  refine ⟨applyUpdate_setTrue, applyUpdate_notTransferred, ?_, ?_, ?_⟩
  · intro t t' repoName createdAt now hall h x hx
    rcases updateRepoStatus_mem h x hx with h1 | ⟨r, _, rfl⟩
    · exact hall x h1
    · exact (applyUpdate_setTrue r _ now rfl).1
  · intro t t' repoName now hall h x hx
    rcases updateRepoStatus_mem h x hx with h1 | ⟨r, hr, rfl⟩
    · exact hall x h1
    · exact applyUpdate_clearError_invariant r now (hall r hr)
  · exact fun t h => resetProcessingRepos_invariant h

/-- A failed, in-flight record used to instantiate the amended C5 claim. -/
def erroredRec : RepoRecord :=
  { name := "r1", branch := "main", transferred := false, processing := true,
    created_at := none, pushed_at := none, error := some ("boom"), retry_count := 2 }

/-- The patch of an update that sets `transferred = true`. -/
def setTransferredPatch : Patch := { transferred := some true }

/-- C5 witness: a concrete update that sets `transferred = true` on a
record with an error present clears it and satisfies the invariant. -/
theorem claim_C5_amended_witness :
    recordInvariant (applyUpdate erroredRec setTransferredPatch ("now"))
    ∧ (applyUpdate erroredRec setTransferredPatch ("now")).pushed_at = some ("now")
    ∧ (applyUpdate erroredRec setTransferredPatch ("now")).error = none :=
  claim_C5_amended.1 erroredRec setTransferredPatch ("now") rfl

/-- C6: `pendingRepositories` returns exactly the records with
`transferred == false`, `processing == false` and `retry_count < 3`, in
stable table order (a sublist of the table); a record at the retry
ceiling is excluded; and after `clearError` a non-transferred,
non-processing record is included again with `retry_count == 0`. -/
theorem claim_C6_pending_repositories (t : List RepoRecord) :
    (getPendingRepos t).Sublist t
    ∧ (∀ r, r ∈ getPendingRepos t ↔
        r ∈ t ∧ r.transferred = false ∧ r.processing = false ∧ r.retry_count < 3)
    ∧ (∀ r ∈ t, r.retry_count = 3 → r ∉ getPendingRepos t)
    ∧ (∀ (repoName now : String) (r : RepoRecord), findRepo t repoName = some r →
        ∃ t', clearError t repoName now = some t' ∧
          ∃ r', findRepo t' repoName = some r' ∧ r'.retry_count = 0 ∧ r'.error = none ∧
            (r.transferred = false → r.processing = false → r' ∈ getPendingRepos t')) := by
  refine ⟨List.filter_sublist t, fun r => mem_getPendingRepos, ?_, ?_⟩
  · intro r _ h3 hmem
    have := (mem_getPendingRepos.mp hmem).2.2.2
    omega
  · intro repoName now r hfind
    obtain ⟨t', ht', hf', _⟩ :=
      updateRepoStatus_found { error := some none, retry_count := some 0 } now hfind
    rw [applyUpdate_clearError_fields] at hf'
    refine ⟨t', ht', { r with error := none, retry_count := 0 }, hf', rfl, rfl, ?_⟩
    intro h1 h2
    exact mem_getPendingRepos.mpr
      ⟨List.mem_of_find?_eq_some hf', h1, h2, by
        show (0 : Nat) < 3
        decide⟩

/-- A record that has reached the retry ceiling. -/
def ceilingRec : RepoRecord :=
  { name := "f", branch := "main", transferred := false, processing := false,
    created_at := none, pushed_at := none, error := some ("err"), retry_count := 3 }

/-- C6 witness: a record at the retry ceiling becomes pending again after
`clearError`. -/
theorem claim_C6_pending_repositories_witness :
    ∃ t', clearError ([ceilingRec]) ("f") ("now") = some t' ∧
      ∃ r', findRepo t' ("f") = some r' ∧ r'.retry_count = 0 ∧ r'.error = none ∧
        (ceilingRec.transferred = false → ceilingRec.processing = false →
          r' ∈ getPendingRepos t') :=
  (claim_C6_pending_repositories ([ceilingRec])).2.2.2 ("f") ("now") ceilingRec (by decide)

/-! ### Claim C2 -/

/-- One `migrateRepository` call leaves the repository's `retry_count`
unchanged on success and increments it by one on failure (via
`markAsError`). -/
theorem runAttempt_retry_count {t : List RepoRecord} {repoName : String} {r : RepoRecord}
    (res : AttemptResult) (now : String) (h : findRepo t repoName = some r) :
    ∃ t' r', runAttempt t repoName res now = some t' ∧ findRepo t' repoName = some r' ∧
      r'.retry_count = (match res with
        | AttemptResult.success _ => r.retry_count
        | AttemptResult.failure _ => r.retry_count + 1) := by
  obtain ⟨t1, ht1, hf1, _⟩ :=
    updateRepoStatus_found { processing := some true, error := some none } now h
  have hrc1 : (applyUpdate r { processing := some true, error := some none } now).retry_count
      = r.retry_count := by
    rw [applyUpdate_retry_count]
    rfl
  cases res with
  | success createdAt =>
    obtain ⟨t2, ht2, hf2, _⟩ := updateRepoStatus_found
      { transferred := some true, processing := some false, error := some none,
        created_at := some createdAt, pushed_at := some now } now hf1
    refine ⟨t2, _, ?_, hf2, ?_⟩
    · simp only [runAttempt, markAsProcessing, ht1, markAsCompleted, ht2]
    · rw [applyUpdate_retry_count]
      simpa using hrc1
  | failure message =>
    obtain ⟨t2, ht2, hf2, _⟩ := updateRepoStatus_found
      { processing := some false, error := some (some message),
        retry_count :=
          some ((applyUpdate r { processing := some true, error := some none }
            now).retry_count + 1) } now hf1
    refine ⟨t2, _, ?_, hf2, ?_⟩
    · simp only [runAttempt, markAsProcessing, ht1, markAsError, hf1, ht2]
    · rw [applyUpdate_retry_count]
      simpa using hrc1

/-- C2 (amended): when a step signals quota exhaustion, the orchestrator
pauses until the signaled reset and retries the same repository exactly
once before moving on; however, the quota-failed attempt itself runs the
failure path and increments `retry_count` by one, and a failed retry
increments it again — the pause-and-retry does consume retry budget. -/
theorem claim_C2_amended {t : List RepoRecord} {repoName : String} {r : RepoRecord}
    (quotaMessage now : String) (retryResult : AttemptResult)
    (h : findRepo t repoName = some r) :
    ∃ t' r', handleQuotaExceeded t repoName quotaMessage retryResult now = some t' ∧
      findRepo t' repoName = some r' ∧
      r'.retry_count = (match retryResult with
        | AttemptResult.success _ => r.retry_count + 1
        | AttemptResult.failure _ => r.retry_count + 2) := by
  obtain ⟨t1, r1, ht1, hf1, hrc1m⟩ :=
    runAttempt_retry_count (AttemptResult.failure quotaMessage) now h
  have hrc1 : r1.retry_count = r.retry_count + 1 := hrc1m
  cases retryResult with
  | success createdAt =>
    obtain ⟨t2, r2, ht2, hf2, hrc2m⟩ :=
      runAttempt_retry_count (AttemptResult.success createdAt) now hf1
    have hrc2 : r2.retry_count = r1.retry_count := hrc2m
    refine ⟨t2, r2, ?_, hf2, ?_⟩
    · simp only [handleQuotaExceeded, ht1, ht2]
    · rw [hrc2, hrc1]
  | failure message =>
    obtain ⟨t2, r2, ht2, hf2, hrc2m⟩ :=
      runAttempt_retry_count (AttemptResult.failure message) now hf1
    have hrc2 : r2.retry_count = r1.retry_count + 1 := hrc2m
    obtain ⟨t3, ht3, hf3, _⟩ := updateRepoStatus_found { processing := some false } now hf2
    refine ⟨t3, _, ?_, hf3, ?_⟩
    · simp only [handleQuotaExceeded, ht1, ht2, ht3]
    · rw [applyUpdate_retry_count]
      simp only [Option.getD_none]
      rw [hrc2, hrc1]

/-- A fresh pending record hit by a quota failure. -/
def quotaRec : RepoRecord :=
  { name := "repoA", branch := "main", transferred := false, processing := false,
    created_at := none, pushed_at := none, error := none, retry_count := 0 }

/-- The record after the quota failure and a successful retry: completed,
but with `retry_count = 1`. -/
def quotaRecAfter : RepoRecord :=
  { name := "repoA", branch := "main", transferred := true, processing := false,
    created_at := some ("2024-01-01"), pushed_at := some ("now"), error := none,
    retry_count := 1 }

/-- C2 counterexample: a quota failure followed by a successful retry
leaves `retry_count = 1`, not `0` — the quota-triggered pause-and-retry
does consume a retry budget slot, contrary to the claim. -/
theorem claim_C2_counterexample :
    handleQuotaExceeded ([quotaRec]) ("repoA") ("quota exceeded")
      (AttemptResult.success ("2024-01-01")) ("now") = some ([quotaRecAfter])
    ∧ quotaRec.retry_count = 0 ∧ quotaRecAfter.retry_count = 1 := by
  refine ⟨by decide, rfl, rfl⟩

/-- C2 witness: the amended claim instantiated on a concrete table with a
failing retry. -/
theorem claim_C2_amended_witness :
    ∃ t' r', handleQuotaExceeded ([quotaRec]) ("repoA") ("q")
        (AttemptResult.failure ("again")) ("now") = some t' ∧
      findRepo t' ("repoA") = some r' ∧
      r'.retry_count = quotaRec.retry_count + 2 :=
  claim_C2_amended ("q") ("now") (AttemptResult.failure ("again")) (by decide)

/-! ### Claims C7 and C8 -/

/-- C7: without a configuration entry the detection mode is auto-detect
and the current files are exactly the full working-tree scan at the
global threshold; with an entry the mode is configured; and in both modes
the history scanner's output is unioned into `historyFiles`. -/
theorem claim_C7_resolver (settings : String → Option LFSConfigEntry) (repoName : String)
    (wt : List (String × Nat)) (ignored : String → Bool)
    (expandPattern : String → List String)
    (commits : List (Option (List (String × Nat)))) (threshold : Nat) :
    (settings repoName = none →
      (scanLFSFiles settings repoName wt ignored expandPattern commits threshold).mode
          = LFSMode.autoDetect
      ∧ (scanLFSFiles settings repoName wt ignored expandPattern commits threshold).files
          = (autoDetectLFSFiles wt ignored threshold).foldl sadd [])
    ∧ (∀ c, settings repoName = some c →
      (scanLFSFiles settings repoName wt ignored expandPattern commits threshold).mode
        = LFSMode.configured)
    ∧ (∀ y, y ∈ detectLargeFilesInHistory commits threshold →
      y ∈ (scanLFSFiles settings repoName wt ignored expandPattern
        commits threshold).historyFiles) := by
  refine ⟨?_, ?_, ?_⟩
  · intro h
    constructor
    · simp [scanLFSFiles, getLFSMode, hasLFSConfig, h]
    · simp [scanLFSFiles, getLFSMode, hasLFSConfig, h]
  · intro c h
    simp [scanLFSFiles, getLFSMode, hasLFSConfig, h]
  · intro y hy
    have hmem : ∀ init : List String,
        y ∈ (detectLargeFilesInHistory commits threshold).foldl sadd init :=
      fun init => mem_foldl_sadd.mpr (Or.inr hy)
    exact hmem _

/-- C7 witness: a repository with no configuration entry resolves to
auto-detect with the working-tree scan as current files. -/
theorem claim_C7_resolver_witness :
    (scanLFSFiles (fun _ => none) ("small-repo") ([("a.txt", 5)]) (fun _ => false)
        (fun _ => []) [] 50).mode = LFSMode.autoDetect
    ∧ (scanLFSFiles (fun _ => none) ("small-repo") ([("a.txt", 5)]) (fun _ => false)
        (fun _ => []) [] 50).files
      = (autoDetectLFSFiles ([("a.txt", 5)]) (fun _ => false) 50).foldl sadd [] :=
  (claim_C7_resolver (fun _ => none) ("small-repo") ([("a.txt", 5)]) (fun _ => false)
    (fun _ => []) [] 50).1 rfl

/-- C8: a configured explicit file that does not exist in the working
tree is not an error and is not dropped — it is reclassified into
`historyFiles`; a configured file that does exist lands in the current
`files`. -/
theorem claim_C8_missing_config_file (settings : String → Option LFSConfigEntry)
    (repoName : String) (wt : List (String × Nat)) (ignored : String → Bool)
    (expandPattern : String → List String)
    (commits : List (Option (List (String × Nat)))) (threshold : Nat)
    (c : LFSConfigEntry) (h : settings repoName = some c)
    (file : String) (hf : file ∈ c.files.getD []) :
    (wt.any (fun e => e.1 = file) = true →
      file ∈ (scanLFSFiles settings repoName wt ignored expandPattern
        commits threshold).files)
    ∧ (wt.any (fun e => e.1 = file) = false →
      file ∈ (scanLFSFiles settings repoName wt ignored expandPattern
        commits threshold).historyFiles) := by
  constructor
  · intro hex
    simp only [scanLFSFiles, getLFSMode, hasLFSConfig, h, Option.isSome_some, if_true]
    have hl1 : file ∈ (c.files.getD []).foldl
        (fun acc f => if wt.any (fun e => e.1 = f) then sadd acc f else acc) [] :=
      (mem_foldl_condsadd (fun f => wt.any (fun e => e.1 = f))).mpr (Or.inr ⟨hf, hex⟩)
    have hl2 : file ∈ (c.patterns.getD []).foldl
        (fun acc pat => (expandPattern pat).foldl sadd acc)
        ((c.files.getD []).foldl
          (fun acc f => if wt.any (fun e => e.1 = f) then sadd acc f else acc) []) :=
      mem_foldl_of_mem_init _ (fun acc b hb => mem_foldl_sadd.mpr (Or.inl hb)) hl1
    by_cases ha : c.autoDetect
    · simp only [if_pos ha]
      exact mem_foldl_sadd.mpr (Or.inl hl2)
    · simp only [if_neg ha]
      exact hl2
  · intro hex
    simp only [scanLFSFiles, getLFSMode, hasLFSConfig, h, Option.isSome_some, if_true]
    have h1 : file ∈ (c.files.getD []).foldl
        (fun acc f => if wt.any (fun e => e.1 = f) then acc else sadd acc f) [] :=
      (mem_foldl_condskip (fun f => wt.any (fun e => e.1 = f))).mpr (Or.inr ⟨hf, hex⟩)
    exact mem_foldl_sadd.mpr (Or.inl h1)

/-- The configuration entry used in the C8 witness: one file that exists
in the working tree, one that does not. -/
def ghostEntry : LFSConfigEntry :=
  { files := some (["ghost.bin", "real.bin"]), patterns := none, autoDetect := false }

/-- C8 witness: the missing configured file lands in `historyFiles`, the
existing one in `files`. -/
theorem claim_C8_missing_config_file_witness :
    ("real.bin" ∈ (scanLFSFiles (fun _ => some ghostEntry) ("with-config")
      ([("real.bin", 10)]) (fun _ => false) (fun _ => []) [] 50).files)
    ∧ ("ghost.bin" ∈ (scanLFSFiles (fun _ => some ghostEntry) ("with-config")
      ([("real.bin", 10)]) (fun _ => false) (fun _ => []) [] 50).historyFiles) :=
  ⟨(claim_C8_missing_config_file (fun _ => some ghostEntry) ("with-config")
      ([("real.bin", 10)]) (fun _ => false) (fun _ => []) [] 50 ghostEntry rfl
      ("real.bin") (by decide)).1 (by decide),
   (claim_C8_missing_config_file (fun _ => some ghostEntry) ("with-config")
      ([("real.bin", 10)]) (fun _ => false) (fun _ => []) [] 50 ghostEntry rfl
      ("ghost.bin") (by decide)).2 (by decide)⟩

/-! ### Claim C4 -/

/-- C4 (amended): `parseSize` maps every string of the form
`<number><unit>` (digits with an optional fractional part, optional
whitespace, case-insensitive unit B/KB/MB/GB) to `number × multiplier`;
the result is an integer whenever the numeral has no fractional part, the
values are consistent across unit scale (n GB = 1024 · n MB
= 1024² · n KB = 1024³ · n B), and every non-conforming input fails with
the MalformedSize error — but a fractional numeral can produce a
non-integer byte count. -/
theorem claim_C4_parseSize_amended (d1 ws : List Char)
    (hd1 : d1 ≠ []) (hd1d : IsDigits d1) (hws : IsWS ws) :
    (∀ u m, unitMult u = some m →
      parseSizeChars (d1 ++ ws ++ u) = some ((digitsVal d1 : ℚ) * m)
      ∧ ∃ n : ℕ, (digitsVal d1 : ℚ) * m = (n : ℚ))
    ∧ (∀ d2, d2 ≠ [] → IsDigits d2 → ∀ u m, unitMult u = some m →
      parseSizeChars (d1 ++ ('.') :: d2 ++ ws ++ u) = some (numeralVal d1 d2 * m))
    ∧ (parseSizeChars (d1 ++ ws ++ (['G', 'B'])) =
        (parseSizeChars (d1 ++ ws ++ (['M', 'B']))).map (fun x => 1024 * x)
      ∧ parseSizeChars (d1 ++ ws ++ (['M', 'B'])) =
        (parseSizeChars (d1 ++ ws ++ (['K', 'B']))).map (fun x => 1024 * x)
      ∧ parseSizeChars (d1 ++ ws ++ (['K', 'B'])) =
        (parseSizeChars (d1 ++ ws ++ (['B']))).map (fun x => 1024 * x))
    ∧ (∀ cs, ¬ ConformsSize cs → parseSizeChars cs = none) := by
  have hint : ∀ u m, unitMult u = some m →
      parseSizeChars (d1 ++ ws ++ u) = some ((digitsVal d1 : ℚ) * m) :=
    fun u m hu => parseSizeChars_intNumeral hd1 hd1d hws hu
  refine ⟨?_, ?_, ⟨?_, ?_, ?_⟩, ?_⟩
  · intro u m hu
    refine ⟨hint u m hu, ?_⟩
    obtain ⟨k, rfl⟩ := unitMult_natCast hu
    exact ⟨digitsVal d1 * k, by push_cast; ring⟩
  · intro d2 hd2 hd2d u m hu
    exact parseSizeChars_fracNumeral hd1 hd1d hd2 hd2d hws hu
  · rw [hint (['G', 'B']) ((1024 : ℚ) * 1024 * 1024) rfl,
      hint (['M', 'B']) ((1024 : ℚ) * 1024) rfl]
    simp only [Option.map_some']
    congr 1
    ring
  · rw [hint (['M', 'B']) ((1024 : ℚ) * 1024) rfl, hint (['K', 'B']) ((1024 : ℚ)) rfl]
    simp only [Option.map_some']
    congr 1
    ring
  · rw [hint (['K', 'B']) ((1024 : ℚ)) rfl, hint (['B']) ((1 : ℚ)) rfl]
    simp only [Option.map_some']
    congr 1
    ring
  · intro cs hcs
    cases hp : parseSizeChars cs with
    | none => rfl
    | some v => exact absurd (parseSizeChars_sound hp) hcs

/-- C4 counterexample: the conforming input `0.5B` parses successfully to
the non-integer byte count 1/2, so `parseSize` does not always return an
integer byte count. -/
theorem claim_C4_counterexample :
    parseSize ("0.5B") = some ((1 : ℚ) / 2) ∧ ¬ ((1 : ℚ) / 2).den = 1 := by
  constructor
  · have h := @parseSizeChars_fracNumeral (['0']) (['5']) [] (['B']) 1 (by decide)
      (by decide) (by decide) (by decide) (by decide) rfl
    rw [show parseSize ("0.5B")
        = parseSizeChars ((['0']) ++ ('.') :: (['5']) ++ [] ++ (['B'])) from rfl]
    rw [h]
    congr 1
    have h0 : digitsVal (['0']) = 0 := rfl
    have h5 : digitsVal (['5']) = 5 := rfl
    unfold numeralVal
    rw [h0, h5]
    norm_num
  · norm_num

/-- C4 witness: `50MB` parses to an integer byte count. -/
theorem claim_C4_parseSize_amended_witness :
    parseSizeChars ((['5', '0']) ++ [] ++ (['M', 'B'])) =
      some ((digitsVal (['5', '0']) : ℚ) * ((1024 : ℚ) * 1024))
    ∧ ∃ n : ℕ, (digitsVal (['5', '0']) : ℚ) * ((1024 : ℚ) * 1024) = (n : ℚ) :=
  (claim_C4_parseSize_amended (['5', '0']) [] (by decide) (by decide) (by decide)).1
    (['M', 'B']) ((1024 : ℚ) * 1024) rfl

end B2G
